import Mathlib

/-!
Verification of the NEXUS-AAL workflow execution orchestrator.

The embedding follows the server code: the `/api/executions/execute`
background loop, the `/api/executions/:id` and `/api/analytics/overview`
handlers, and the `executeAgentStep` step runner.  Stateful code is
modelled as a function from inputs to a trace of repository writes and
runner invocations; the external AI collaborator is an oracle parameter.
-/

namespace Nexus

/-- A step specification as stored in a workflow's `steps_json`.
Only the fields the execution loop reads (`step.name`, `step.agentType`)
are modelled. -/
structure StepSpec where
  name : String
  agentType : String
  deriving Repr, DecidableEq

/-- The value returned by `executeAgentStep`:
`{ success: boolean, result?: object, error?: string }`.
The result payload is modelled as its JSON serialization;
`none` stands for an absent (`undefined`) field. -/
structure StepResult where
  success : Bool
  result : Option String := none
  error : Option String := none
  deriving Repr, DecidableEq

/-- Outcome of one invocation of the step runner as observed by the
execution loop's `try { const result = await executeAgentStep(...) }`:
either a returned `StepResult` or a thrown fault with message `msg`. -/
inductive RunnerRet where
  | ret (r : StepResult)
  | thr (msg : String)
  deriving Repr, DecidableEq

/-- The in-memory `context` object: a mapping from step name to result
payload.  Represented as an association list where the most recent
binding comes first, so lookup sees the latest write. -/
def Context := List (String × Option String)
  deriving Repr, DecidableEq

instance : EmptyCollection Context := ⟨([] : List (String × Option String))⟩

/-- `Object.assign(context, { [step.name]: result.result })`. -/
def mergeCtx (c : Context) (n : String) (v : Option String) : Context :=
  (n, v) :: c

/-- Reading `context[n]`: `none` if the key is absent, otherwise the
latest value written under key `n`. -/
def lookupCtx (c : Context) (n : String) : Option (Option String) :=
  ((c : List (String × Option String)).find? (fun p => p.1 = n)).map (·.2)

/-- One observable action of the execution loop: a repository write
(`INSERT INTO execution_steps`, `UPDATE execution_steps`,
`UPDATE workflow_executions`) or an invocation of the step runner with
the context passed to it.  Step rows are keyed by their `step_index`,
which identifies the row uniquely within one execution. -/
inductive Event where
  | insertStep (idx : Nat) (name : String) (agentType : String) (status : String)
  | updateStep (idx : Nat) (status : String) (result : Option String) (error : Option String)
  | updateExecution (status : String) (error : Option String)
  | callRunner (idx : Nat) (ctx : Context)
  deriving Repr, DecidableEq

/-- The background loop of `POST /api/executions/execute`, from step
index `i` on, with current context `ctx`.  `runner j c` is the outcome
of `await executeAgentStep(steps[j], c)`.  Mirrors the source:
insert the step row as `running`, invoke the runner, update the step
row, then either merge the result into the context and continue, or
mark the execution `failed` and return; after the last step, mark the
execution `completed`. -/
def execLoop (runner : Nat → Context → RunnerRet) :
    List StepSpec → Nat → Context → List Event
  | [], _, _ => [Event.updateExecution "completed" none]
  | s :: rest, i, ctx =>
    Event.insertStep i s.name s.agentType "running" ::
    Event.callRunner i ctx ::
    match runner i ctx with
    | RunnerRet.ret r =>
      Event.updateStep i (if r.success then "completed" else "failed") r.result r.error ::
      (if r.success then
        execLoop runner rest (i + 1) (mergeCtx ctx s.name r.result)
      else
        [Event.updateExecution "failed" r.error])
    | RunnerRet.thr msg =>
      [Event.updateStep i "failed" none (some msg),
       Event.updateExecution "failed" (some msg)]

/-- The full background task: the loop started at index 0 with an empty
context (`const context = {}`). -/
def executionTrace (runner : Nat → Context → RunnerRet) (steps : List StepSpec) :
    List Event :=
  execLoop runner steps 0 ∅

/-- The `step_index` values of the `INSERT INTO execution_steps` writes,
in trace order. -/
def insertIndices (t : List Event) : List Nat :=
  t.filterMap fun e =>
    match e with
    | Event.insertStep j _ _ _ => some j
    | _ => none

end Nexus

namespace Nexus

/-! ### Persistent store and HTTP handlers -/

/-- A row of the `workflows` table (fields the handlers read). -/
structure WorkflowRow where
  id : String
  steps : List StepSpec
  deriving Repr, DecidableEq

/-- A row of the `workflow_executions` table (fields the handlers read). -/
structure ExecutionRow where
  id : String
  workflowId : String
  status : String
  errorMessage : Option String := none
  deriving Repr, DecidableEq

/-- A row of the `execution_steps` table (fields the handlers read). -/
structure StepRow where
  id : String
  executionId : String
  stepIndex : Nat
  status : String
  deriving Repr, DecidableEq

/-- The SQLite store as read and written by the handlers. -/
structure Db where
  workflows : List WorkflowRow
  executions : List ExecutionRow
  steps : List StepRow
  deriving Repr, DecidableEq

/-- Synchronous part of the response of `POST /api/executions/execute`. -/
structure ExecuteResponse where
  status : Nat
  error : Option String := none
  executionId : Option String := none
  deriving Repr, DecidableEq

/-- The synchronous part of the `POST /api/executions/execute` handler:
look the workflow up; on miss answer `404 {error: "Workflow not found"}`
and leave the store unchanged; on hit insert a `running` execution row
with the fresh id `newId` and answer it. -/
def executeHandler (db : Db) (workflowId newId : String) : ExecuteResponse × Db :=
  match db.workflows.find? (fun w => w.id = workflowId) with
  | none => ({ status := 404, error := some "Workflow not found" }, db)
  | some _ =>
    ({ status := 200, executionId := some newId },
     { db with executions :=
        db.executions ++ [{ id := newId, workflowId := workflowId, status := "running" }] })

/-- Response of `GET /api/executions/:id`:
`res.json({ ...execution, steps })`.  `execution = none` models the
spread of `undefined`, which contributes no fields. -/
structure GetExecutionResponse where
  status : Nat
  execution : Option ExecutionRow
  steps : List StepRow
  deriving Repr, DecidableEq

/-- The `GET /api/executions/:id` handler: one lookup in
`workflow_executions`, one filter of `execution_steps` by
`execution_id`, always HTTP 200. -/
def getExecutionHandler (db : Db) (id : String) : GetExecutionResponse :=
  { status := 200
    execution := db.executions.find? (fun e => e.id = id)
    steps := db.steps.filter (fun st => st.executionId = id) }

/-- Number of executions with status `s`
(`SELECT status, COUNT(*) ... GROUP BY status`, one group). -/
def statusCount (db : Db) (s : String) : Nat :=
  (db.executions.filter (fun e => e.status = s)).length

/-- Number of executions with status `completed`
(`COUNT(CASE WHEN status = 'completed' THEN 1 END)`). -/
def completedCount (db : Db) : Nat :=
  statusCount db "completed"

/-- JavaScript `Math.round` on a (finite, nonnegative here) number:
round half away from zero, i.e. `⌊q + 1/2⌋` for `q ≥ 0`. -/
def mathRound (q : ℚ) : ℤ := ⌊q + 1 / 2⌋

/-- The `successRate` field: the SQL query yields
`COUNT(completed) * 100.0 / COUNT(*)`, which is `NULL` over an empty
table; `|| 0` coerces that to `0`, and `Math.round` is applied. -/
def successRate (db : Db) : ℤ :=
  if db.executions.length = 0 then 0
  else mathRound ((completedCount db : ℚ) * 100 / (db.executions.length : ℚ))

/-- The `statusBreakdown` field: one `(status, count)` pair per distinct
status present among the executions. -/
def statusBreakdown (db : Db) : List (String × Nat) :=
  ((db.executions.map (fun e => e.status)).dedup).map (fun s => (s, statusCount db s))

/-- Response of `GET /api/analytics/overview`. -/
structure AnalyticsResponse where
  totalWorkflows : Nat
  totalExecutions : Nat
  successRate : ℤ
  statusBreakdown : List (String × Nat)
  deriving Repr, DecidableEq

/-- The `GET /api/analytics/overview` handler. -/
def analyticsOverview (db : Db) : AnalyticsResponse :=
  { totalWorkflows := db.workflows.length
    totalExecutions := db.executions.length
    successRate := successRate db
    statusBreakdown := statusBreakdown db }

end Nexus

namespace Nexus

/-! ### The step runner `executeAgentStep` -/

/-- What the external `ai.models.generateContent` call produced for one
step, as observed through `executeAgentStep`'s `try`/`catch`:
* `throws m` — the call (or any code before the return) threw; `m` is
  `error.message`, `none` when the thrown value has no message;
* `emptyText` — `response.text` was absent or empty (falsy);
* `badJson m` — the text was present but `JSON.parse` threw with
  message `m`;
* `parsed r` — the text parsed to the object `r`. -/
inductive AiOutcome where
  | throws (m : Option String)
  | emptyText
  | badJson (m : String)
  | parsed (r : StepResult)
  deriving Repr, DecidableEq

/-- `error.message || "Unknown error during agent execution"`:
an absent or empty message falls back to the default. -/
def jsMessageOr (m : Option String) : String :=
  match m with
  | none => "Unknown error during agent execution"
  | some s => if s = "" then "Unknown error during agent execution" else s

/-- `executeAgentStep` as a function of the collaborator's outcome:
an empty response is answered with a failure result, a parsed payload
is returned verbatim, and any thrown fault (from the call or from
`JSON.parse`) is caught and mapped to `{success:false, error:...}`. -/
def executeAgentStep (o : AiOutcome) : StepResult :=
  match o with
  | AiOutcome.throws m => { success := false, error := some (jsMessageOr m) }
  | AiOutcome.emptyText => { success := false, error := some "Empty response from agent" }
  | AiOutcome.badJson m => { success := false, error := some (jsMessageOr (some m)) }
  | AiOutcome.parsed r => r

/-- An outcome on which the collaborator faulted (threw, answered
nothing, or answered unparsable text) rather than returning a payload. -/
def isFault (o : AiOutcome) : Prop :=
  ∀ r, o ≠ AiOutcome.parsed r

instance (o : AiOutcome) : Decidable (isFault o) := by
  unfold isFault
  cases o with
  | throws m => exact isTrue (fun r h => by cases h)
  | emptyText => exact isTrue (fun r h => by cases h)
  | badJson m => exact isTrue (fun r h => by cases h)
  | parsed r => exact isFalse (fun h => h r rfl)

end Nexus

namespace Nexus

/-! ### Trace lemmas about the execution loop -/

/-- The step index an event is about (`none` for execution-level writes). -/
def eventIdx : Event → Option Nat
  | Event.insertStep j _ _ _ => some j
  | Event.updateStep j _ _ _ => some j
  | Event.callRunner j _ => some j
  | Event.updateExecution _ _ => none

/-- Every indexed event in the loop started at `i` has index at least `i`. -/
theorem execLoop_idx_ge (runner : Nat → Context → RunnerRet) :
    ∀ (steps : List StepSpec) (i : Nat) (c : Context) (e : Event),
      e ∈ execLoop runner steps i c → ∀ j, eventIdx e = some j → i ≤ j := by
  intro steps
  induction steps with
  | nil =>
    intro i c e he j hj
    simp only [execLoop, List.mem_singleton] at he
    subst he
    simp [eventIdx] at hj
  | cons s rest ih =>
    intro i c e he j hj
    simp only [execLoop, List.mem_cons] at he
    rcases he with rfl | he
    · simp only [eventIdx, Option.some.injEq] at hj
      omega
    rcases he with rfl | he
    · simp only [eventIdx, Option.some.injEq] at hj
      omega
    cases hr : runner i c with
    | ret r =>
      simp only [hr, List.mem_cons] at he
      rcases he with rfl | he
      · simp only [eventIdx, Option.some.injEq] at hj
        omega
      by_cases hs : r.success = true
      · simp only [hs, if_true] at he
        have := ih (i + 1) (mergeCtx c s.name r.result) e he j hj
        omega
      · simp only [hs, Bool.false_eq_true, if_false, List.mem_singleton] at he
        subst he
        simp [eventIdx] at hj
    | thr m =>
      simp only [hr, List.mem_cons] at he
      rcases he with rfl | rfl | h0
      · simp only [eventIdx, Option.some.injEq] at hj
        omega
      · simp [eventIdx] at hj
      · simp at h0

/-- Each step index receives at most one `UPDATE execution_steps` write:
its status, stored result and stored error are determined. -/
theorem execLoop_updateStep_unique (runner : Nat → Context → RunnerRet) :
    ∀ (steps : List StepSpec) (i : Nat) (c : Context) (j : Nat)
      (st st' : String) (R R' er er' : Option String),
      Event.updateStep j st R er ∈ execLoop runner steps i c →
      Event.updateStep j st' R' er' ∈ execLoop runner steps i c →
      st = st' ∧ R = R' ∧ er = er' := by
  intro steps
  induction steps with
  | nil =>
    intro i c j st st' R R' er er' h1 h2
    simp [execLoop] at h1
  | cons s rest ih =>
    intro i c j st st' R R' er er' h1 h2
    simp only [execLoop, List.mem_cons] at h1 h2
    cases hr : runner i c with
    | ret r =>
      simp only [hr] at h1 h2
      by_cases hs : r.success = true <;>
        simp only [hs, if_true, Bool.false_eq_true, if_false, List.mem_cons,
          List.mem_singleton, Event.updateStep.injEq, List.not_mem_nil,
          false_or, or_false, reduceCtorEq] at h1 h2
      · rcases h1 with ⟨rfl, rfl, rfl, rfl⟩ | h1
        · rcases h2 with ⟨_, rfl, rfl, rfl⟩ | h2
          · exact ⟨rfl, rfl, rfl⟩
          · have := execLoop_idx_ge runner rest (j + 1) (mergeCtx c s.name r.result)
              (Event.updateStep j st' R' er') h2 j rfl
            omega
        · rcases h2 with ⟨rfl, rfl, rfl, rfl⟩ | h2
          · have := execLoop_idx_ge runner rest (j + 1) (mergeCtx c s.name r.result)
              (Event.updateStep j st R er) h1 j rfl
            omega
          · exact ih (i + 1) (mergeCtx c s.name r.result) j st st' R R' er er' h1 h2
      · obtain ⟨rfl, rfl, rfl, rfl⟩ := h1
        obtain ⟨_, rfl, rfl, rfl⟩ := h2
        exact ⟨rfl, rfl, rfl⟩
    | thr m =>
      simp only [hr, List.mem_cons, List.mem_singleton, Event.updateStep.injEq,
        List.not_mem_nil, false_or, or_false, reduceCtorEq] at h1 h2
      obtain ⟨rfl, rfl, rfl, rfl⟩ := h1
      obtain ⟨_, rfl, rfl, rfl⟩ := h2
      exact ⟨rfl, rfl, rfl⟩

/-- Fail-fast shape: once a step row is written `failed` (either from
a returned failure or from a caught fault), every step insertion and
every runner invocation in the whole trace is at an index `≤` the
failed one, and the execution row is written `failed` with the very
error stored on that step. -/
theorem execLoop_fail_fast (runner : Nat → Context → RunnerRet) :
    ∀ (steps : List StepSpec) (i : Nat) (c : Context) (j : Nat) (R er : Option String),
      Event.updateStep j "failed" R er ∈ execLoop runner steps i c →
      (∀ k n a st, Event.insertStep k n a st ∈ execLoop runner steps i c → k ≤ j) ∧
      (∀ k ctx, Event.callRunner k ctx ∈ execLoop runner steps i c → k ≤ j) ∧
      Event.updateExecution "failed" er ∈ execLoop runner steps i c := by
  intro steps
  induction steps with
  | nil =>
    intro i c j R er h
    simp [execLoop] at h
  | cons s rest ih =>
    intro i c j R er h
    simp only [execLoop, List.mem_cons] at h
    cases hr : runner i c with
    | ret r =>
      simp only [hr] at h
      by_cases hs : r.success = true
      · simp only [hs, if_true, List.mem_cons, Event.updateStep.injEq,
          reduceCtorEq, false_or] at h
        rcases h with ⟨rfl, hbad, rfl, rfl⟩ | h
        · exact absurd hbad (by decide)
        · have hij := execLoop_idx_ge runner rest (i + 1)
            (mergeCtx c s.name r.result) (Event.updateStep j "failed" R er) h j rfl
          obtain ⟨ih1, ih2, ih3⟩ := ih (i + 1) (mergeCtx c s.name r.result) j R er h
          refine ⟨?_, ?_, ?_⟩
          · intro k n a st hk
            simp only [execLoop, hr, hs, if_true, List.mem_cons, Event.insertStep.injEq,
              reduceCtorEq, false_or] at hk
            rcases hk with ⟨rfl, -, -, -⟩ | hk
            · omega
            · exact ih1 k n a st hk
          · intro k ctx hk
            simp only [execLoop, hr, hs, if_true, List.mem_cons, Event.callRunner.injEq,
              reduceCtorEq, false_or] at hk
            rcases hk with ⟨rfl, -⟩ | hk
            · omega
            · exact ih2 k ctx hk
          · simp only [execLoop, hr, hs, if_true, List.mem_cons]
            exact Or.inr (Or.inr (Or.inr ih3))
      · simp only [hs, Bool.false_eq_true, if_false, List.mem_cons, List.mem_singleton,
          Event.updateStep.injEq, reduceCtorEq, false_or, or_false, List.not_mem_nil,
          true_and, and_true] at h
        obtain ⟨rfl, rfl, rfl⟩ := h
        refine ⟨?_, ?_, ?_⟩
        · intro k n a st hk
          simp only [execLoop, hr, hs, Bool.false_eq_true, if_false, List.mem_cons,
            List.mem_singleton, Event.insertStep.injEq, reduceCtorEq, false_or,
            or_false, List.not_mem_nil] at hk
          obtain ⟨rfl, -, -, -⟩ := hk
          omega
        · intro k ctx hk
          simp only [execLoop, hr, hs, Bool.false_eq_true, if_false, List.mem_cons,
            List.mem_singleton, Event.callRunner.injEq, reduceCtorEq, false_or,
            or_false, List.not_mem_nil] at hk
          obtain ⟨rfl, -⟩ := hk
          omega
        · simp [execLoop, hr, hs]
    | thr m =>
      simp only [hr, List.mem_cons, List.mem_singleton, Event.updateStep.injEq,
        reduceCtorEq, false_or, or_false, List.not_mem_nil, true_and, and_true] at h
      obtain ⟨rfl, rfl, rfl⟩ := h
      refine ⟨?_, ?_, ?_⟩
      · intro k n a st hk
        simp only [execLoop, hr, List.mem_cons, List.mem_singleton,
          Event.insertStep.injEq, reduceCtorEq, false_or, or_false,
          List.not_mem_nil] at hk
        obtain ⟨rfl, -, -, -⟩ := hk
        omega
      · intro k ctx hk
        simp only [execLoop, hr, List.mem_cons, List.mem_singleton,
          Event.callRunner.injEq, reduceCtorEq, false_or, or_false,
          List.not_mem_nil] at hk
        obtain ⟨rfl, -⟩ := hk
        omega
      · simp [execLoop, hr]

/-- The runner invocation at the loop's starting index receives exactly
the loop's starting context. -/
theorem execLoop_call_head (runner : Nat → Context → RunnerRet)
    (steps : List StepSpec) (i : Nat) (c : Context) (ctx : Context)
    (h : Event.callRunner i ctx ∈ execLoop runner steps i c) : ctx = c := by
  cases steps with
  | nil => simp [execLoop] at h
  | cons s rest =>
    simp only [execLoop, List.mem_cons, reduceCtorEq, false_or,
      Event.callRunner.injEq, true_and] at h
    rcases h with rfl | h
    · rfl
    cases hr : runner i c with
    | ret r =>
      simp only [hr, List.mem_cons, reduceCtorEq, false_or] at h
      by_cases hs : r.success = true
      · simp only [hs, if_true] at h
        have := execLoop_idx_ge runner rest (i + 1) (mergeCtx c s.name r.result)
          (Event.callRunner i ctx) h i rfl
        omega
      · simp [hs] at h
    | thr m =>
      simp [hr] at h

/-- A runner invocation whose outcome is a returned `StepResult` is
followed in the trace by the matching step-row update. -/
theorem execLoop_call_ret_update (runner : Nat → Context → RunnerRet) :
    ∀ (steps : List StepSpec) (i : Nat) (c : Context) (j : Nat)
      (ctx : Context) (r : StepResult),
      Event.callRunner j ctx ∈ execLoop runner steps i c →
      runner j ctx = RunnerRet.ret r →
      Event.updateStep j (if r.success then "completed" else "failed") r.result r.error ∈
        execLoop runner steps i c := by
  intro steps
  induction steps with
  | nil =>
    intro i c j ctx r h hret
    simp [execLoop] at h
  | cons s rest ih =>
    intro i c j ctx r h hret
    simp only [execLoop, List.mem_cons, reduceCtorEq, false_or,
      Event.callRunner.injEq] at h
    rcases h with ⟨rfl, rfl⟩ | h
    · simp only [execLoop, hret, List.mem_cons]
      right; right; left; trivial
    cases hr : runner i c with
    | ret r0 =>
      simp only [hr, List.mem_cons, reduceCtorEq, false_or] at h
      by_cases hs : r0.success = true
      · simp only [hs, if_true] at h
        have := ih (i + 1) (mergeCtx c s.name r0.result) j ctx r h hret
        simp only [execLoop, hr, hs, if_true, List.mem_cons]
        exact Or.inr (Or.inr (Or.inr this))
      · simp [hs] at h
    | thr m =>
      simp [hr] at h

/-- The context handed to the runner at index `j + 1` is the context
handed to it at index `j`, extended with the entry for step `j`'s name
and successful result. -/
theorem execLoop_call_succ (runner : Nat → Context → RunnerRet) :
    ∀ (steps : List StepSpec) (i : Nat) (c : Context) (j : Nat) (ctx' : Context),
      i ≤ j →
      Event.callRunner (j + 1) ctx' ∈ execLoop runner steps i c →
      ∃ s ctx r, steps[j - i]? = some s ∧
        Event.callRunner j ctx ∈ execLoop runner steps i c ∧
        runner j ctx = RunnerRet.ret r ∧ r.success = true ∧
        ctx' = mergeCtx ctx s.name r.result := by
  intro steps
  induction steps with
  | nil =>
    intro i c j ctx' hij h
    simp [execLoop] at h
  | cons s rest ih =>
    intro i c j ctx' hij h
    simp only [execLoop, List.mem_cons, reduceCtorEq, false_or,
      Event.callRunner.injEq] at h
    rcases h with ⟨hji, rfl⟩ | h
    · omega
    cases hr : runner i c with
    | ret r0 =>
      simp only [hr, List.mem_cons, reduceCtorEq, false_or] at h
      by_cases hs : r0.success = true
      · simp only [hs, if_true] at h
        rcases Nat.eq_or_lt_of_le hij with rfl | hlt
        · -- j = i: the call at j + 1 is the head call of the tail loop
          have hc := execLoop_call_head runner rest (i + 1)
            (mergeCtx c s.name r0.result) ctx' h
          refine ⟨s, c, r0, by simp, ?_, hr, hs, hc⟩
          simp only [execLoop, hr, hs, if_true, List.mem_cons]
          right; left; trivial
        · obtain ⟨s0, ctx0, r1, hget, hmem, hrun, hsuc, hctx⟩ :=
            ih (i + 1) (mergeCtx c s.name r0.result) j ctx' hlt h
          refine ⟨s0, ctx0, r1, ?_, ?_, hrun, hsuc, hctx⟩
          · have hsub : j - i = (j - (i + 1)) + 1 := by omega
            rw [hsub, List.getElem?_cons_succ]
            exact hget
          · simp only [execLoop, hr, hs, if_true, List.mem_cons]
            exact Or.inr (Or.inr (Or.inr hmem))
      · simp [hs] at h
    | thr m =>
      simp [hr] at h

/-- All-success shape: when the runner answers every invocation with a
successful return, the trace is a block of step writes followed by the
single, final `completed` execution write, and every step received its
`completed` update inside that block. -/
theorem execLoop_all_success (runner : Nat → Context → RunnerRet)
    (hall : ∀ j ctx, ∃ r, runner j ctx = RunnerRet.ret r ∧ r.success = true) :
    ∀ (steps : List StepSpec) (i : Nat) (c : Context),
      ∃ pre, execLoop runner steps i c = pre ++ [Event.updateExecution "completed" none] ∧
        (∀ st er, Event.updateExecution st er ∉ pre) ∧
        (∀ k, k < steps.length → ∃ R er, Event.updateStep (i + k) "completed" R er ∈ pre) := by
  intro steps
  induction steps with
  | nil =>
    intro i c
    exact ⟨[], rfl, by simp, by simp⟩
  | cons s rest ih =>
    intro i c
    obtain ⟨r, hrun, hsuc⟩ := hall i c
    obtain ⟨pre, heq, hnoexec, hsteps⟩ := ih (i + 1) (mergeCtx c s.name r.result)
    refine ⟨Event.insertStep i s.name s.agentType "running" ::
      Event.callRunner i c ::
      Event.updateStep i "completed" r.result r.error :: pre, ?_, ?_, ?_⟩
    · simp only [execLoop, hrun, hsuc, if_true, heq]
      rfl
    · intro st er hmem
      simp only [List.mem_cons, reduceCtorEq, false_or] at hmem
      exact hnoexec st er hmem
    · intro k hk
      cases k with
      | zero => exact ⟨r.result, r.error, by simp⟩
      | succ k' =>
        obtain ⟨R, er, hm⟩ := hsteps k' (by simpa using hk)
        refine ⟨R, er, ?_⟩
        have hidx : i + (k' + 1) = (i + 1) + k' := by omega
        rw [hidx]
        exact List.mem_cons_of_mem _ (List.mem_cons_of_mem _ (List.mem_cons_of_mem _ hm))

/-- The `step_index` values inserted by the loop started at `i` form a
contiguous run `i, i+1, ...`. -/
theorem execLoop_insertIndices (runner : Nat → Context → RunnerRet) :
    ∀ (steps : List StepSpec) (i : Nat) (c : Context),
      ∃ m, insertIndices (execLoop runner steps i c) = List.range' i m := by
  intro steps
  induction steps with
  | nil =>
    intro i c
    exact ⟨0, by simp [execLoop, insertIndices]⟩
  | cons s rest ih =>
    intro i c
    cases hr : runner i c with
    | ret r =>
      by_cases hs : r.success = true
      · obtain ⟨m, hm⟩ := ih (i + 1) (mergeCtx c s.name r.result)
        refine ⟨m + 1, ?_⟩
        simp only [execLoop, hr, hs, if_true, insertIndices, List.filterMap_cons] at hm ⊢
        rw [List.range'_succ]
        simpa using hm
      · refine ⟨1, ?_⟩
        simp [execLoop, hr, hs, insertIndices, List.range'_succ]
    | thr m =>
      refine ⟨1, ?_⟩
      simp [execLoop, hr, insertIndices, List.range'_succ]

/-- Every step row is inserted with status `running`. -/
theorem execLoop_insert_running (runner : Nat → Context → RunnerRet) :
    ∀ (steps : List StepSpec) (i : Nat) (c : Context) (j : Nat) (n a stt : String),
      Event.insertStep j n a stt ∈ execLoop runner steps i c → stt = "running" := by
  intro steps
  induction steps with
  | nil =>
    intro i c j n a stt h
    simp [execLoop] at h
  | cons s rest ih =>
    intro i c j n a stt h
    simp only [execLoop, List.mem_cons, Event.insertStep.injEq, reduceCtorEq,
      false_or] at h
    rcases h with ⟨-, -, -, hst⟩ | h
    · exact hst
    cases hr : runner i c with
    | ret r =>
      simp only [hr, List.mem_cons, reduceCtorEq, false_or] at h
      by_cases hs : r.success = true
      · simp only [hs, if_true] at h
        exact ih (i + 1) (mergeCtx c s.name r.result) j n a stt h
      · simp [hs] at h
    | thr m =>
      simp [hr] at h

/-- Every step-row update writes a terminal status. -/
theorem execLoop_update_terminal (runner : Nat → Context → RunnerRet) :
    ∀ (steps : List StepSpec) (i : Nat) (c : Context) (j : Nat) (stt : String)
      (R er : Option String),
      Event.updateStep j stt R er ∈ execLoop runner steps i c →
      stt = "completed" ∨ stt = "failed" := by
  intro steps
  induction steps with
  | nil =>
    intro i c j stt R er h
    simp [execLoop] at h
  | cons s rest ih =>
    intro i c j stt R er h
    simp only [execLoop, List.mem_cons, reduceCtorEq, false_or] at h
    cases hr : runner i c with
    | ret r =>
      simp only [hr, List.mem_cons, Event.updateStep.injEq, reduceCtorEq,
        false_or] at h
      rcases h with ⟨-, hst, -, -⟩ | h
      · by_cases hs : r.success = true
        · simp only [hs, if_true] at hst
          exact Or.inl hst
        · simp only [hs, Bool.false_eq_true, if_false] at hst
          exact Or.inr hst
      · by_cases hs : r.success = true
        · simp only [hs, if_true] at h
          exact ih (i + 1) (mergeCtx c s.name r.result) j stt R er h
        · simp only [hs, Bool.false_eq_true, if_false, List.mem_singleton,
            reduceCtorEq] at h
    | thr m =>
      simp only [hr, List.mem_cons, List.mem_singleton, Event.updateStep.injEq,
        reduceCtorEq, false_or, or_false, List.not_mem_nil] at h
      exact Or.inr h.2.1

/-- Any step insertion is either the first action of the loop (at the
loop's starting index) or is preceded, earlier in the trace, by the
terminal update of the previous step's row. -/
theorem execLoop_insert_after_update (runner : Nat → Context → RunnerRet) :
    ∀ (steps : List StepSpec) (i : Nat) (c : Context) (l1 l2 : List Event)
      (j : Nat) (n a stt : String),
      execLoop runner steps i c = l1 ++ Event.insertStep j n a stt :: l2 →
      (j = i ∧ l1 = []) ∨ ∃ st' R er, Event.updateStep (j - 1) st' R er ∈ l1 := by
  intro steps
  induction steps with
  | nil =>
    intro i c l1 l2 j n a stt heq
    cases l1 with
    | nil => simp [execLoop] at heq
    | cons e l1' =>
      have hlen := congrArg List.length heq
      simp [execLoop] at hlen
  | cons s rest ih =>
    intro i c l1 l2 j n a stt heq
    simp only [execLoop] at heq
    cases hr : runner i c with
    | ret r =>
      rw [hr] at heq
      by_cases hs : r.success = true
      · simp only [hs, if_true] at heq
        cases l1 with
        | nil =>
          simp only [List.nil_append, List.cons.injEq, Event.insertStep.injEq] at heq
          exact Or.inl ⟨heq.1.1.symm, rfl⟩
        | cons e1 l1' =>
          simp only [List.cons_append, List.cons.injEq] at heq
          obtain ⟨rfl, heq⟩ := heq
          cases l1' with
          | nil =>
            simp only [List.nil_append, List.cons.injEq, reduceCtorEq,
              false_and] at heq
          | cons e2 l1'' =>
            simp only [List.cons_append, List.cons.injEq] at heq
            obtain ⟨rfl, heq⟩ := heq
            cases l1'' with
            | nil =>
              simp only [List.nil_append, List.cons.injEq, reduceCtorEq,
                false_and] at heq
            | cons e3 l1''' =>
              simp only [List.cons_append, List.cons.injEq] at heq
              obtain ⟨rfl, heq⟩ := heq
              rcases ih (i + 1) (mergeCtx c s.name r.result) l1''' l2 j n a stt heq with
                ⟨rfl, rfl⟩ | ⟨st', R, er, hm⟩
              · refine Or.inr ⟨"completed", r.result, r.error, ?_⟩
                simp only [Nat.add_sub_cancel]
                simp
              · exact Or.inr ⟨st', R, er,
                  List.mem_cons_of_mem _ (List.mem_cons_of_mem _
                    (List.mem_cons_of_mem _ hm))⟩
      · simp only [hs, Bool.false_eq_true, if_false] at heq
        cases l1 with
        | nil =>
          simp only [List.nil_append, List.cons.injEq, Event.insertStep.injEq] at heq
          exact Or.inl ⟨heq.1.1.symm, rfl⟩
        | cons e1 l1' =>
          simp only [List.cons_append, List.cons.injEq] at heq
          obtain ⟨rfl, heq⟩ := heq
          cases l1' with
          | nil =>
            simp only [List.nil_append, List.cons.injEq, reduceCtorEq,
              false_and] at heq
          | cons e2 l1'' =>
            simp only [List.cons_append, List.cons.injEq] at heq
            obtain ⟨rfl, heq⟩ := heq
            cases l1'' with
            | nil =>
              simp only [List.nil_append, List.cons.injEq, reduceCtorEq,
                false_and] at heq
            | cons e3 l1''' =>
              simp only [List.cons_append, List.cons.injEq] at heq
              obtain ⟨rfl, heq⟩ := heq
              cases l1''' with
              | nil =>
                simp only [List.nil_append, List.cons.injEq, reduceCtorEq,
                  false_and] at heq
              | cons e4 l1'''' =>
                have hlen := congrArg List.length heq
                simp at hlen
    | thr m =>
      rw [hr] at heq
      cases l1 with
      | nil =>
        simp only [List.nil_append, List.cons.injEq, Event.insertStep.injEq] at heq
        exact Or.inl ⟨heq.1.1.symm, rfl⟩
      | cons e1 l1' =>
        simp only [List.cons_append, List.cons.injEq] at heq
        obtain ⟨rfl, heq⟩ := heq
        cases l1' with
        | nil =>
          simp only [List.nil_append, List.cons.injEq, reduceCtorEq,
            false_and] at heq
        | cons e2 l1'' =>
          simp only [List.cons_append, List.cons.injEq] at heq
          obtain ⟨rfl, heq⟩ := heq
          cases l1'' with
          | nil =>
            simp only [List.nil_append, List.cons.injEq, reduceCtorEq,
              false_and] at heq
          | cons e3 l1''' =>
            simp only [List.cons_append, List.cons.injEq] at heq
            obtain ⟨rfl, heq⟩ := heq
            cases l1''' with
            | nil =>
              simp only [List.nil_append, List.cons.injEq, reduceCtorEq,
                false_and] at heq
            | cons e4 l1'''' =>
              have hlen := congrArg List.length heq
              simp at hlen

/-- Entry lookup after a merge finds the merged value. -/
theorem lookupCtx_mergeCtx (c : Context) (n : String) (v : Option String) :
    lookupCtx (mergeCtx c n v) n = some v := by
  simp [lookupCtx, mergeCtx, List.find?_cons_of_pos]

end Nexus

namespace Nexus

/-! ### Claim theorems -/

/-- C1: if the step at index `i` fails (returned failure or thrown
fault), no ExecutionStep row with index greater than `i` is ever
created, no further runner invocation happens, and the Execution is
persisted as `failed` with the same error message recorded on the
failed step. -/
theorem fail_fast_halt (runner : Nat → Context → RunnerRet)
    (steps : List StepSpec) (i : Nat) (R er : Option String)
    (h : Event.updateStep i "failed" R er ∈ executionTrace runner steps) :
    (∀ k n a stt, Event.insertStep k n a stt ∈ executionTrace runner steps → k ≤ i) ∧
    (∀ k ctx, Event.callRunner k ctx ∈ executionTrace runner steps → k ≤ i) ∧
    Event.updateExecution "failed" er ∈ executionTrace runner steps :=
  execLoop_fail_fast runner steps 0 ∅ i R er h

/-- C1 witness: a concrete two-step plan whose first step fails with
`"timeout"`; the second step row is never inserted and the execution is
marked `failed` with the same message. -/
theorem fail_fast_halt_witness :
    (Event.updateStep 0 "failed" none (some "timeout") ∈
      executionTrace (fun _ _ => RunnerRet.ret { success := false, error := some "timeout" })
        [⟨"A", "data"⟩, ⟨"B", "communication"⟩]) ∧
    ((∀ k n a stt, Event.insertStep k n a stt ∈
        executionTrace (fun _ _ => RunnerRet.ret { success := false, error := some "timeout" })
          [⟨"A", "data"⟩, ⟨"B", "communication"⟩] → k ≤ 0) ∧
      (∀ k ctx, Event.callRunner k ctx ∈
        executionTrace (fun _ _ => RunnerRet.ret { success := false, error := some "timeout" })
          [⟨"A", "data"⟩, ⟨"B", "communication"⟩] → k ≤ 0) ∧
      Event.updateExecution "failed" (some "timeout") ∈
        executionTrace (fun _ _ => RunnerRet.ret { success := false, error := some "timeout" })
          [⟨"A", "data"⟩, ⟨"B", "communication"⟩]) :=
  ⟨by decide,
   fail_fast_halt (fun _ _ => RunnerRet.ret { success := false, error := some "timeout" })
     [⟨"A", "data"⟩, ⟨"B", "communication"⟩] 0 none (some "timeout") (by decide)⟩

/-- C2: if step `i` completes with name `N` and result `R`, the context
passed to the runner for step `i + 1` maps `N` to `R` (the latest
write under a name wins, as the merge lemma conjunct states), and after
any failed step no further runner invocation — hence no merge of a
failed step's result — occurs. -/
theorem context_propagation (runner : Nat → Context → RunnerRet)
    (steps : List StepSpec) (i : Nat) (s : StepSpec) (R er : Option String)
    (ctx : Context)
    (hstep : steps[i]? = some s)
    (hupd : Event.updateStep i "completed" R er ∈ executionTrace runner steps)
    (hcall : Event.callRunner (i + 1) ctx ∈ executionTrace runner steps) :
    lookupCtx ctx s.name = some R ∧
    (∀ c n v w, lookupCtx (mergeCtx (mergeCtx c n v) n w) n = some w) ∧
    (∀ j R' er', Event.updateStep j "failed" R' er' ∈ executionTrace runner steps →
      ∀ k ctx', Event.callRunner k ctx' ∈ executionTrace runner steps → k ≤ j) := by
  obtain ⟨s0, ctx0, r, hget, hmem, hrun, hsuc, rfl⟩ :=
    execLoop_call_succ runner steps 0 ∅ i ctx (Nat.zero_le i) hcall
  rw [Nat.sub_zero] at hget
  have hseq : s0 = s := by rw [hget] at hstep; exact Option.some.inj hstep
  subst hseq
  have hupd2 := execLoop_call_ret_update runner steps 0 ∅ i ctx0 r hmem hrun
  rw [if_pos hsuc] at hupd2
  obtain ⟨-, hR, -⟩ :=
    execLoop_updateStep_unique runner steps 0 ∅ i "completed" "completed"
      R r.result er r.error hupd hupd2
  refine ⟨?_, fun c n v w => lookupCtx_mergeCtx _ n w, ?_⟩
  · rw [hR]
    exact lookupCtx_mergeCtx ctx0 s0.name r.result
  · intro j R' er' hfail k ctx' hc
    exact (execLoop_fail_fast runner steps 0 ∅ j R' er' hfail).2.1 k ctx' hc

/-- C2 witness: a two-step plan where step 0 (`A`) completes with
result `"r0"`; the context handed to the runner at step 1 maps `A` to
that result. -/
theorem context_propagation_witness :
    (([⟨"A", "data"⟩, ⟨"B", "communication"⟩] : List StepSpec)[0]? = some ⟨"A", "data"⟩ ∧
      Event.updateStep 0 "completed" (some "r0") none ∈
        executionTrace (fun _ _ => RunnerRet.ret { success := true, result := some "r0" })
          [⟨"A", "data"⟩, ⟨"B", "communication"⟩] ∧
      Event.callRunner (0 + 1) (mergeCtx ∅ "A" (some "r0")) ∈
        executionTrace (fun _ _ => RunnerRet.ret { success := true, result := some "r0" })
          [⟨"A", "data"⟩, ⟨"B", "communication"⟩]) ∧
    lookupCtx (mergeCtx ∅ "A" (some "r0")) "A" = some (some "r0") :=
  ⟨⟨by decide, by decide, by decide⟩,
   (context_propagation (fun _ _ => RunnerRet.ret { success := true, result := some "r0" })
     [⟨"A", "data"⟩, ⟨"B", "communication"⟩] 0 ⟨"A", "data"⟩ (some "r0") none
     (mergeCtx ∅ "A" (some "r0")) (by decide) (by decide) (by decide)).1⟩

/-- C3: when every step succeeds, the trace is a block of per-step
writes followed by the single final `completed` execution update: the
final update comes strictly after all per-step updates, and every step
index received its `completed` update inside the block. -/
theorem all_success_completion (runner : Nat → Context → RunnerRet)
    (steps : List StepSpec)
    (hall : ∀ j ctx, ∃ r, runner j ctx = RunnerRet.ret r ∧ r.success = true) :
    ∃ pre, executionTrace runner steps = pre ++ [Event.updateExecution "completed" none] ∧
      (∀ st er, Event.updateExecution st er ∉ pre) ∧
      (∀ k, k < steps.length → ∃ R er, Event.updateStep k "completed" R er ∈ pre) := by
  obtain ⟨pre, h1, h2, h3⟩ := execLoop_all_success runner hall steps 0 ∅
  refine ⟨pre, h1, h2, fun k hk => ?_⟩
  obtain ⟨R, er, hm⟩ := h3 k hk
  exact ⟨R, er, by simpa using hm⟩

/-- C3 witness: a one-step always-successful run; the trace decomposes
with the `completed` execution update last. -/
theorem all_success_completion_witness :
    (∀ j ctx, ∃ r, (fun (_ : Nat) (_ : Context) =>
        RunnerRet.ret { success := true, result := some "r" : StepResult }) j ctx =
        RunnerRet.ret r ∧ r.success = true) ∧
    (∃ pre, executionTrace (fun _ _ => RunnerRet.ret { success := true, result := some "r" })
        [⟨"A", "data"⟩] = pre ++ [Event.updateExecution "completed" none] ∧
      (∀ st er, Event.updateExecution st er ∉ pre) ∧
      (∀ k, k < ([⟨"A", "data"⟩] : List StepSpec).length →
        ∃ R er, Event.updateStep k "completed" R er ∈ pre)) :=
  ⟨fun _ _ => ⟨{ success := true, result := some "r" }, rfl, rfl⟩,
   all_success_completion (fun _ _ => RunnerRet.ret { success := true, result := some "r" })
     [⟨"A", "data"⟩]
     (fun _ _ => ⟨{ success := true, result := some "r" }, rfl, rfl⟩)⟩

/-- C5: step rows are inserted with `step_index` contiguous from 0 in
creation order; a row at index `j + 1` is only created after the row at
index `j` received its update; rows are created `running` and updated
only to the terminal statuses — so at most one row is `running` at any
point. -/
theorem sequential_step_rows (runner : Nat → Context → RunnerRet)
    (steps : List StepSpec) :
    (insertIndices (executionTrace runner steps) =
      List.range (insertIndices (executionTrace runner steps)).length) ∧
    (∀ l1 l2 j n a stt,
      executionTrace runner steps = l1 ++ Event.insertStep (j + 1) n a stt :: l2 →
      ∃ st' R er, Event.updateStep j st' R er ∈ l1) ∧
    (∀ j n a stt, Event.insertStep j n a stt ∈ executionTrace runner steps →
      stt = "running") ∧
    (∀ j stt R er, Event.updateStep j stt R er ∈ executionTrace runner steps →
      stt = "completed" ∨ stt = "failed") := by
  refine ⟨?_, ?_, ?_, ?_⟩
  · obtain ⟨m, hm⟩ := execLoop_insertIndices runner steps 0 ∅
    rw [executionTrace, hm, List.length_range', List.range_eq_range']
  · intro l1 l2 j n a stt heq
    rcases execLoop_insert_after_update runner steps 0 ∅ l1 l2 (j + 1) n a stt heq with
      ⟨hj, -⟩ | ⟨st', R, er, hm⟩
    · omega
    · exact ⟨st', R, er, by simpa using hm⟩
  · exact execLoop_insert_running runner steps 0 ∅
  · exact execLoop_update_terminal runner steps 0 ∅

/-- C5 witness: in a concrete two-step successful run, the insert of
step 1 is preceded by the terminal update of step 0, and the insert
indices are `[0, 1]`. -/
theorem sequential_step_rows_witness :
    (executionTrace (fun _ _ => RunnerRet.ret { success := true, result := some "r" })
        [⟨"A", "data"⟩, ⟨"B", "communication"⟩] =
      [Event.insertStep 0 "A" "data" "running",
       Event.callRunner 0 ∅,
       Event.updateStep 0 "completed" (some "r") none] ++
      Event.insertStep (0 + 1) "B" "communication" "running" ::
      [Event.callRunner 1 (mergeCtx ∅ "A" (some "r")),
       Event.updateStep 1 "completed" (some "r") none,
       Event.updateExecution "completed" none]) ∧
    (∃ st' R er, Event.updateStep 0 st' R er ∈
      [Event.insertStep 0 "A" "data" "running",
       Event.callRunner 0 ∅,
       Event.updateStep 0 "completed" (some "r") none]) :=
  ⟨by decide,
   (sequential_step_rows (fun _ _ => RunnerRet.ret { success := true, result := some "r" })
     [⟨"A", "data"⟩, ⟨"B", "communication"⟩]).2.1
     [Event.insertStep 0 "A" "data" "running",
      Event.callRunner 0 ∅,
      Event.updateStep 0 "completed" (some "r") none]
     [Event.callRunner 1 (mergeCtx ∅ "A" (some "r")),
      Event.updateStep 1 "completed" (some "r") none,
      Event.updateExecution "completed" none]
     0 "B" "communication" "running" (by decide)⟩

/-- C4: when the workflow id does not resolve to a stored workflow,
the execute handler answers 404 with `"Workflow not found"` and the
store — in particular the executions table — is unchanged. -/
theorem execute_unknown_workflow (db : Db) (workflowId newId : String)
    (h : db.workflows.find? (fun w => w.id = workflowId) = none) :
    (executeHandler db workflowId newId).1.status = 404 ∧
    (executeHandler db workflowId newId).1.error = some "Workflow not found" ∧
    (executeHandler db workflowId newId).2 = db := by
  simp [executeHandler, h]

/-- C4 witness: an empty store and an arbitrary id. -/
theorem execute_unknown_workflow_witness :
    ((⟨[], [], []⟩ : Db).workflows.find? (fun w => w.id = "nope") = none) ∧
    ((executeHandler ⟨[], [], []⟩ "nope" "e1").1.status = 404 ∧
      (executeHandler ⟨[], [], []⟩ "nope" "e1").1.error = some "Workflow not found" ∧
      (executeHandler ⟨[], [], []⟩ "nope" "e1").2 = ⟨[], [], []⟩) :=
  ⟨by decide, execute_unknown_workflow ⟨[], [], []⟩ "nope" "e1" (by decide)⟩

/-- C6: on every fault of the external executor call (thrown error,
empty response, unparsable output) `executeAgentStep` returns
`{success: false, error: <nonempty message>}` instead of propagating
the fault; being a total function of the outcome, it never throws. -/
theorem runner_never_throws (o : AiOutcome) (h : isFault o) :
    (executeAgentStep o).success = false ∧
    ∃ m, (executeAgentStep o).error = some m ∧ m ≠ "" := by
  cases o with
  | throws m =>
    refine ⟨rfl, jsMessageOr m, rfl, ?_⟩
    cases m with
    | none => decide
    | some s =>
      by_cases hs : s = "" <;> simp [jsMessageOr, hs]
  | emptyText => exact ⟨rfl, "Empty response from agent", rfl, by decide⟩
  | badJson m =>
    refine ⟨rfl, jsMessageOr (some m), rfl, ?_⟩
    by_cases hm : m = "" <;> simp [jsMessageOr, hm]
  | parsed r => exact absurd rfl (h r)

/-- C6 witness: the empty-response fault maps to a populated failure. -/
theorem runner_never_throws_witness :
    isFault AiOutcome.emptyText ∧
    ((executeAgentStep AiOutcome.emptyText).success = false ∧
      ∃ m, (executeAgentStep AiOutcome.emptyText).error = some m ∧ m ≠ "") :=
  ⟨fun _ h => AiOutcome.noConfusion h,
   runner_never_throws AiOutcome.emptyText (fun _ h => AiOutcome.noConfusion h)⟩

/-- C7 counterexample: when the executor's response parses to
`{"success": false}` — which satisfies the response schema, whose only
required field is `success` — `executeAgentStep` returns it verbatim,
so `success` is `false` while `error` is absent. -/
theorem failure_error_populated_cex :
    (executeAgentStep (AiOutcome.parsed { success := false })).success = false ∧
    (executeAgentStep (AiOutcome.parsed { success := false })).error = none :=
  ⟨rfl, rfl⟩

/-- C7 (amended): on wrapper-detected faults (thrown error, empty
response, unparsable output) the result is `success = false` with a
nonempty error message and no result payload; but a response that
parses is returned verbatim, so nothing constrains its `error` and
`result` fields. -/
theorem failure_error_populated_amended (o : AiOutcome) :
    (isFault o →
      (executeAgentStep o).success = false ∧
      (executeAgentStep o).result = none ∧
      ∃ m, (executeAgentStep o).error = some m ∧ m ≠ "") ∧
    (∀ r, o = AiOutcome.parsed r → executeAgentStep o = r) := by
  constructor
  · intro h
    cases o with
    | throws m =>
      refine ⟨rfl, rfl, jsMessageOr m, rfl, ?_⟩
      cases m with
      | none => decide
      | some s => by_cases hs : s = "" <;> simp [jsMessageOr, hs]
    | emptyText => exact ⟨rfl, rfl, "Empty response from agent", rfl, by decide⟩
    | badJson m =>
      refine ⟨rfl, rfl, jsMessageOr (some m), rfl, ?_⟩
      by_cases hm : m = "" <;> simp [jsMessageOr, hm]
    | parsed r => exact absurd rfl (h r)
  · intro r hr
    subst hr
    rfl

/-- C7 amended witness: at the unparsable-output fault with message
`"Unexpected token"`, the returned value is a populated failure. -/
theorem failure_error_populated_amended_witness :
    isFault (AiOutcome.badJson "Unexpected token") ∧
    ((executeAgentStep (AiOutcome.badJson "Unexpected token")).success = false ∧
      (executeAgentStep (AiOutcome.badJson "Unexpected token")).result = none ∧
      ∃ m, (executeAgentStep (AiOutcome.badJson "Unexpected token")).error = some m ∧
        m ≠ "") :=
  ⟨fun _ h => AiOutcome.noConfusion h,
   (failure_error_populated_amended (AiOutcome.badJson "Unexpected token")).1
     (fun _ h => AiOutcome.noConfusion h)⟩

/-- C8: the analytics aggregate reports the workflow count, the
execution count, a success rate within one half of
`completed / total * 100` (i.e. that ratio rounded to the nearest
integer, halves up), and a per-status histogram of the executions. -/
theorem analytics_overview_correct (db : Db) (h : 0 < db.executions.length) :
    (analyticsOverview db).totalWorkflows = db.workflows.length ∧
    (analyticsOverview db).totalExecutions = db.executions.length ∧
    |((analyticsOverview db).successRate : ℚ) -
      (completedCount db : ℚ) * 100 / (db.executions.length : ℚ)| ≤ 1 / 2 ∧
    (∀ p ∈ (analyticsOverview db).statusBreakdown, p.2 = statusCount db p.1) ∧
    (∀ e ∈ db.executions, (e.status, statusCount db e.status) ∈
      (analyticsOverview db).statusBreakdown) := by
  refine ⟨rfl, rfl, ?_, ?_, ?_⟩
  · have hne : db.executions.length ≠ 0 := Nat.pos_iff_ne_zero.mp h
    show |((successRate db : ℚ)) - _| ≤ 1 / 2
    rw [successRate, if_neg hne, mathRound]
    set q : ℚ := (completedCount db : ℚ) * 100 / (db.executions.length : ℚ) with hq
    have h1 : ((⌊q + 1 / 2⌋ : ℤ) : ℚ) ≤ q + 1 / 2 := Int.floor_le _
    have h2 : q + 1 / 2 < ((⌊q + 1 / 2⌋ : ℤ) : ℚ) + 1 := Int.lt_floor_add_one _
    rw [abs_le]
    constructor <;> linarith
  · intro p hp
    simp only [analyticsOverview, statusBreakdown, List.mem_map] at hp
    obtain ⟨s, -, rfl⟩ := hp
    rfl
  · intro e he
    simp only [analyticsOverview, statusBreakdown, List.mem_map]
    exact ⟨e.status, List.mem_dedup.mpr (List.mem_map_of_mem _ he), rfl⟩

/-- C8 witness: three executions, two of them completed; the aggregate
is applied with the nonempty-table hypothesis discharged. -/
theorem analytics_overview_correct_witness :
    (0 < (⟨[], [⟨"1", "w", "completed", none⟩, ⟨"2", "w", "completed", none⟩,
        ⟨"3", "w", "failed", none⟩], []⟩ : Db).executions.length) ∧
    ((analyticsOverview ⟨[], [⟨"1", "w", "completed", none⟩,
        ⟨"2", "w", "completed", none⟩, ⟨"3", "w", "failed", none⟩], []⟩).totalWorkflows =
      (⟨[], [⟨"1", "w", "completed", none⟩, ⟨"2", "w", "completed", none⟩,
        ⟨"3", "w", "failed", none⟩], []⟩ : Db).workflows.length ∧
     (analyticsOverview ⟨[], [⟨"1", "w", "completed", none⟩,
        ⟨"2", "w", "completed", none⟩, ⟨"3", "w", "failed", none⟩], []⟩).totalExecutions =
      (⟨[], [⟨"1", "w", "completed", none⟩, ⟨"2", "w", "completed", none⟩,
        ⟨"3", "w", "failed", none⟩], []⟩ : Db).executions.length ∧
     |((analyticsOverview ⟨[], [⟨"1", "w", "completed", none⟩,
          ⟨"2", "w", "completed", none⟩, ⟨"3", "w", "failed", none⟩], []⟩).successRate : ℚ) -
        (completedCount ⟨[], [⟨"1", "w", "completed", none⟩, ⟨"2", "w", "completed", none⟩,
          ⟨"3", "w", "failed", none⟩], []⟩ : ℚ) * 100 /
        ((⟨[], [⟨"1", "w", "completed", none⟩, ⟨"2", "w", "completed", none⟩,
          ⟨"3", "w", "failed", none⟩], []⟩ : Db).executions.length : ℚ)| ≤ 1 / 2 ∧
     (∀ p ∈ (analyticsOverview ⟨[], [⟨"1", "w", "completed", none⟩,
          ⟨"2", "w", "completed", none⟩, ⟨"3", "w", "failed", none⟩], []⟩).statusBreakdown,
        p.2 = statusCount ⟨[], [⟨"1", "w", "completed", none⟩, ⟨"2", "w", "completed", none⟩,
          ⟨"3", "w", "failed", none⟩], []⟩ p.1) ∧
     (∀ e ∈ (⟨[], [⟨"1", "w", "completed", none⟩, ⟨"2", "w", "completed", none⟩,
          ⟨"3", "w", "failed", none⟩], []⟩ : Db).executions,
        (e.status, statusCount ⟨[], [⟨"1", "w", "completed", none⟩,
          ⟨"2", "w", "completed", none⟩, ⟨"3", "w", "failed", none⟩], []⟩ e.status) ∈
          (analyticsOverview ⟨[], [⟨"1", "w", "completed", none⟩,
            ⟨"2", "w", "completed", none⟩,
            ⟨"3", "w", "failed", none⟩], []⟩).statusBreakdown)) :=
  ⟨by decide,
   analytics_overview_correct ⟨[], [⟨"1", "w", "completed", none⟩,
     ⟨"2", "w", "completed", none⟩, ⟨"3", "w", "failed", none⟩], []⟩ (by decide)⟩

/-- C9: with zero executions in the store the success-rate query yields
`NULL`, coerced by `|| 0` to zero — the aggregate reports 0 instead of
failing on the empty-table division. -/
theorem analytics_empty_success_rate (db : Db) (h : db.executions = []) :
    (analyticsOverview db).successRate = 0 := by
  simp [analyticsOverview, successRate, h]

/-- C9 witness: the empty store. -/
theorem analytics_empty_success_rate_witness :
    ((⟨[], [], []⟩ : Db).executions = []) ∧
    (analyticsOverview ⟨[], [], []⟩).successRate = 0 :=
  ⟨rfl, analytics_empty_success_rate ⟨[], [], []⟩ rfl⟩

/-- C10: an id not identifying any stored execution (in a store whose
step rows all belong to stored executions) is answered with HTTP 200,
no execution fields (the spread of `undefined`), and an empty `steps`
list — not with a 404. -/
theorem get_execution_unknown_id (db : Db) (id : String)
    (hwf : ∀ st ∈ db.steps, ∃ e ∈ db.executions, e.id = st.executionId)
    (h : db.executions.find? (fun e => e.id = id) = none) :
    (getExecutionHandler db id).execution = none ∧
    (getExecutionHandler db id).steps = [] ∧
    (getExecutionHandler db id).status = 200 := by
  refine ⟨h, ?_, rfl⟩
  rw [List.find?_eq_none] at h
  show db.steps.filter (fun st => st.executionId = id) = []
  rw [List.filter_eq_nil_iff]
  intro st hst
  obtain ⟨e, he, heid⟩ := hwf st hst
  have := h e he
  simp only [decide_eq_true_eq] at this ⊢
  intro hsid
  exact this (heid.trans hsid)

/-- C10 witness: a store holding one execution `e1` with one step,
queried with the unknown id `zzz`. -/
theorem get_execution_unknown_id_witness :
    ((∀ st ∈ (⟨[], [⟨"e1", "w", "completed", none⟩], [⟨"s1", "e1", 0, "completed"⟩]⟩ : Db).steps,
        ∃ e ∈ (⟨[], [⟨"e1", "w", "completed", none⟩],
          [⟨"s1", "e1", 0, "completed"⟩]⟩ : Db).executions, e.id = st.executionId) ∧
      (⟨[], [⟨"e1", "w", "completed", none⟩],
        [⟨"s1", "e1", 0, "completed"⟩]⟩ : Db).executions.find? (fun e => e.id = "zzz") = none) ∧
    ((getExecutionHandler ⟨[], [⟨"e1", "w", "completed", none⟩],
        [⟨"s1", "e1", 0, "completed"⟩]⟩ "zzz").execution = none ∧
      (getExecutionHandler ⟨[], [⟨"e1", "w", "completed", none⟩],
        [⟨"s1", "e1", 0, "completed"⟩]⟩ "zzz").steps = [] ∧
      (getExecutionHandler ⟨[], [⟨"e1", "w", "completed", none⟩],
        [⟨"s1", "e1", 0, "completed"⟩]⟩ "zzz").status = 200) :=
  ⟨⟨by decide, by decide⟩,
   get_execution_unknown_id ⟨[], [⟨"e1", "w", "completed", none⟩],
     [⟨"s1", "e1", 0, "completed"⟩]⟩ "zzz" (by decide) (by decide)⟩

end Nexus

-- sanity examples (concrete evaluations of the embedding)
section Sanity
open Nexus

example :
    executionTrace (fun _ _ => RunnerRet.ret { success := true, result := some "r" })
      [⟨"A", "data"⟩] =
    [Event.insertStep 0 "A" "data" "running",
     Event.callRunner 0 ∅,
     Event.updateStep 0 "completed" (some "r") none,
     Event.updateExecution "completed" none] := by rfl

example :
    executionTrace (fun _ _ => RunnerRet.ret { success := false, error := some "timeout" })
      [⟨"A", "data"⟩, ⟨"B", "communication"⟩] =
    [Event.insertStep 0 "A" "data" "running",
     Event.callRunner 0 ∅,
     Event.updateStep 0 "failed" none (some "timeout"),
     Event.updateExecution "failed" (some "timeout")] := by rfl

example :
    successRate { workflows := [], executions :=
      [{ id := "1", workflowId := "w", status := "completed" },
       { id := "2", workflowId := "w", status := "completed" },
       { id := "3", workflowId := "w", status := "failed" }], steps := [] } = 67 := by
  have h : completedCount { workflows := [], executions :=
      [{ id := "1", workflowId := "w", status := "completed" },
       { id := "2", workflowId := "w", status := "completed" },
       { id := "3", workflowId := "w", status := "failed" }], steps := [] } = 2 := rfl
  norm_num [successRate, mathRound, h]

end Sanity
